import Mathlib

/-!
Verification of the pynmea2 AIS fragment-reassembly engine and payload
interpretation pipeline (`src/pynmea2_ais/ais_parser.py`).

The reassembly state machine lives in `VDM.parse_payload` (lines 143-202),
which mutates the class-level `collections.OrderedDict` `VDM.SEQUENTIAL_MSG`
bounded by `VDM.SEQ_LIMIT`.  We embed the `OrderedDict` as an association
list in insertion order (Python dict assignment replaces the value of an
existing key in place, keeping its position, and appends new keys at the
end; `dict.pop` removes the key or raises `KeyError` when absent).
-/

namespace AisParser

/-- A parsed `!AIVDM` sentence record (class `VDM`, field table at lines
109-116).  `count` and `fragment` are the values after the `int()` casts at
lines 160-161; negative wire values do not arise for these 1-based fields,
so they are carried as `Nat`.  `fill_bits` is opaque to the reassembly
logic. -/
structure VDMRecord where
  count : Nat
  fragment : Nat
  sequential_msg_id : String
  payload : String
  fill_bits : Nat
deriving DecidableEq, Repr

/-- One entry of the `SEQUENTIAL_MSG` ordered dictionary. -/
abbrev Slot := String × VDMRecord

/-- `dict.get(key, None)`: first entry with the given key, if any. -/
def odGet : List Slot → String → Option VDMRecord
  | [], _ => none
  | (k, v) :: rest, key => if k = key then some v else odGet rest key

/-- `dict[key] = value` on an `OrderedDict`: replace the value of an
existing key in place (keeping its position), else append at the end. -/
def odSet : List Slot → String → VDMRecord → List Slot
  | [], key, v => [(key, v)]
  | (k, w) :: rest, key, v =>
    if k = key then (k, v) :: rest else (k, w) :: odSet rest key v

/-- `dict.pop(key)`: remove the entry; `none` models the `KeyError` raised
when the key is absent. -/
def odPop? : List Slot → String → Option (List Slot)
  | [], _ => none
  | (k, w) :: rest, key =>
    if k = key then some rest
    else (odPop? rest key).map (fun r => (k, w) :: r)

/-- Replace the value stored under a key, doing nothing when the key is
absent.  This models the aliasing at line 192: `self.payload = ...`
mutates the very object stored by `SEQUENTIAL_MSG[self.sequential_msg_id]
= self` at line 165, so the stored slot is updated exactly when it is
still present (it may have been evicted by the capacity check). -/
def odUpdate : List Slot → String → VDMRecord → List Slot
  | [], _, _ => []
  | (k, w) :: rest, key, v =>
    if k = key then (k, v) :: rest else (k, w) :: odUpdate rest key v

/-- Pure erasure of the first entry with the given key (for stating what
the `pop` calls leave behind). -/
def odErase : List Slot → String → List Slot
  | [], _ => []
  | (k, w) :: rest, key =>
    if k = key then rest else (k, w) :: odErase rest key

/-- The class-level reassembly state: `VDM.SEQUENTIAL_MSG` (insertion
ordered) and `VDM.SEQ_LIMIT` (line 120, `float("inf")` by default, modelled
as `none`; a configured finite limit is `some k`). -/
structure AisState where
  SEQUENTIAL_MSG : List Slot
  SEQ_LIMIT : Option Nat
deriving DecidableEq, Repr

/-- `len(SEQUENTIAL_MSG) > SEQ_LIMIT` (line 168); always false against the
default `float("inf")`. -/
def exceeds (n : Nat) : Option Nat → Bool
  | none => false
  | some k => decide (k < n)

/-- Lines 167-172: when the dictionary has grown past `SEQ_LIMIT`, pop the
oldest entry (`list(SEQUENTIAL_MSG)[0]`) and call `NOTIFY` with a message
naming the evicted sequential id.  We record the evicted id itself; the
actual `NOTIFY` string embeds `repr(old)` inside fixed text. -/
def evictStep (m : List Slot) (lim : Option Nat) : List Slot × List String :=
  if exceeds m.length lim then
    match m with
    | [] => ([], [])
    | (old, _) :: rest => (rest, [old])
  else (m, [])

/-- Outcome of one `VDM.parse_payload` call.  `complete` carries the
stitched payload and the final fragment's `fill_bits` (the method returns
`self` with those fields after populating `sub_fields`); `pending` is the
implicit `None` return; `incompleteError` is the `IncompleteMessageError`
raised at line 188 carrying the expected fragment number; `keyError` is an
uncaught `KeyError` from `dict.pop` on an absent key; `unparsed` is the
constructor skipping `parse_payload` for an empty payload (line 131). -/
inductive ParseOutcome where
  | complete (payload : String) (fill_bits : Nat)
  | pending
  | incompleteError (expected : Nat)
  | keyError
  | unparsed
deriving DecidableEq, Repr

/-- `VDM.parse_payload` (lines 143-202), as a function from the class
state and the freshly constructed record (`self`) to the outcome, the new
state, and the list of evicted ids passed to `NOTIFY`. -/
def parse_payload (st : AisState) (self : VDMRecord) :
    ParseOutcome × AisState × List String :=
  -- line 164: prev_seq = cls.SEQUENTIAL_MSG.get(self.sequential_msg_id, None)
  let prev0 := odGet st.SEQUENTIAL_MSG self.sequential_msg_id
  -- line 165: cls.SEQUENTIAL_MSG[self.sequential_msg_id] = self
  let m1 := odSet st.SEQUENTIAL_MSG self.sequential_msg_id self
  -- lines 167-172: capacity enforcement
  let ev := evictStep m1 st.SEQ_LIMIT
  let m2 := ev.1
  let notes := ev.2
  -- lines 175-176: a fragment-1 record voids the previous chain
  let prev_seq := if self.fragment = 1 then none else prev0
  -- lines 179-183
  let last : Nat := match prev_seq with | none => 0 | some p => p.fragment
  let prev_payload : String := match prev_seq with | none => "" | some p => p.payload
  -- lines 186-189: ordering check
  if last + 1 ≠ self.fragment then
    match odPop? m2 self.sequential_msg_id with
    | none => (ParseOutcome.keyError, ⟨m2, st.SEQ_LIMIT⟩, notes)
    | some m3 => (ParseOutcome.incompleteError (last + 1), ⟨m3, st.SEQ_LIMIT⟩, notes)
  else
    -- line 192: self.payload = prev_payload + self.payload (aliased in the dict)
    let self2 : VDMRecord := { self with payload := prev_payload ++ self.payload }
    let m3 := odUpdate m2 self.sequential_msg_id self2
    -- lines 195-201: completion check (is_complete: count == fragment)
    if self2.count = self2.fragment then
      match odPop? m3 self.sequential_msg_id with
      | none => (ParseOutcome.keyError, ⟨m3, st.SEQ_LIMIT⟩, notes)
      | some m4 => (ParseOutcome.complete self2.payload self.fill_bits, ⟨m4, st.SEQ_LIMIT⟩, notes)
    else (ParseOutcome.pending, ⟨m3, st.SEQ_LIMIT⟩, notes)

/-- `VDM.__init__` (lines 126-133): `parse_payload` runs only when the
payload field is non-empty; an empty payload leaves the sentence unparsed
and the reassembly state untouched. -/
def accept (st : AisState) (self : VDMRecord) :
    ParseOutcome × AisState × List String :=
  if self.payload = "" then (ParseOutcome.unparsed, st, [])
  else parse_payload st self

/-- Accept a list of sentence records in order, returning the final state
and the outcome of the last `accept` call (`none` for an empty list). -/
def runAccepts : AisState → List VDMRecord → AisState × Option ParseOutcome
  | st, [] => (st, none)
  | st, r :: rs =>
    let res := accept st r
    let rec2 := runAccepts res.2.1 rs
    (rec2.1, some (rec2.2.getD res.1))

/-- The fragment records of one logical message: common fragment count
`n`, common sequential id, consecutive fragment numbers starting at
`start`, one payload chunk per record. -/
def mkFragments (id : String) (n : Nat) (fb : Nat) : Nat → List String → List VDMRecord
  | _, [] => []
  | start, c :: cs => ⟨n, start, id, c, fb⟩ :: mkFragments id n fb (start + 1) cs

/-- Ordered concatenation of payload chunks. -/
def concatAll : List String → String
  | [] => ""
  | c :: cs => c ++ concatAll cs

/-- The expected next fragment number for a record against a reassembly
map, following the spec's ordering rule: the previous slot's fragment
number plus one, or `1` when there is no prior slot or the record is a
fragment-1 fresh start. -/
def expected_next (m : List Slot) (r : VDMRecord) : Nat :=
  if r.fragment = 1 then 1
  else
    match odGet m r.sequential_msg_id with
    | none => 1
    | some p => p.fragment + 1

/-- Python's `\s` (the `re` whitespace class, restricted to ASCII; the
non-ASCII whitespace of Python's Unicode mode is not exercised here). -/
def isPySpace (c : Char) : Bool :=
  c = ' ' || c = '\t' || c = '\n' || c = '\r' || c = '\x0b' || c = '\x0c'

/-- Python's `\w` (ASCII part). -/
def isWordChar (c : Char) : Bool :=
  ('a' ≤ c && c ≤ 'z') || ('A' ≤ c && c ≤ 'Z') || ('0' ≤ c && c ≤ '9') || c = '_'

/-- The checksum digit class `[A-F0-9]` under `re.IGNORECASE`. -/
def isHexIC (c : Char) : Bool :=
  ('A' ≤ c && c ≤ 'F') || ('a' ≤ c && c ≤ 'f') || ('0' ≤ c && c ≤ '9')

/-- The proprietary-sentence alternative `(P\w{3})` of `sentence_re`
(case-insensitive `P`): consumes its fixed-length prefix. -/
def matchTypeP : List Char → Option (List Char)
  | p :: a :: b :: c :: rest =>
    if (p = 'P' || p = 'p') && isWordChar a && isWordChar b && isWordChar c then
      some rest
    else none
  | _ => none

/-- The query-sentence alternative `(\w{2}\w{2}Q,\w{3})`. -/
def matchTypeQ : List Char → Option (List Char)
  | a :: b :: c :: d :: q :: comma :: e :: f :: g :: rest =>
    if isWordChar a && isWordChar b && isWordChar c && isWordChar d &&
        (q = 'Q' || q = 'q') && comma = ',' &&
        isWordChar e && isWordChar f && isWordChar g then
      some rest
    else none
  | _ => none

/-- The talker-sentence alternative `(\w{2}\w{3},)`. -/
def matchTypeT : List Char → Option (List Char)
  | a :: b :: c :: d :: e :: comma :: rest =>
    if isWordChar a && isWordChar b && isWordChar c && isWordChar d &&
        isWordChar e && comma = ',' then
      some rest
    else none
  | _ => none

/-- The tail of `sentence_re` after the sentence type:
`(?P<data>[^*]*)(?:[*](?P<checksum>[A-F0-9]{2}))?\s*[\r\n]*$` — star-free
data, then an optional `*HH` checksum followed only by whitespace
(`[\r\n]` is contained in `\s`). -/
def restOk : List Char → Bool
  | [] => true
  | c :: rest =>
    if c = '*' then
      match rest with
      | h1 :: h2 :: t => isHexIC h1 && isHexIC h2 && t.all isPySpace
      | _ => false
    else restOk rest

def tailFrom : Option (List Char) → Bool
  | none => false
  | some r => restOk r

/-- The optional start marker `[\$|\!]?`: the character class contains a
literal `|` besides the escaped `$` and `!`. -/
def dropMarker (cs : List Char) : List Char :=
  match cs with
  | c :: rest => if c = '$' || c = '|' || c = '!' then rest else cs
  | [] => []

/-- The adapted `NMEASentence.sentence_re` (lines 31-60) as an executable
matcher.  `^\s*` is consumed greedily (safe: no later token matches
whitespace), then the optional start marker.  The three sentence-type
alternatives are tried disjunctively, which agrees with the regex's
backtracking because each alternative consumes a fixed-length prefix and
`restOk` decides the tail exactly. -/
def sentence_re_match (s : String) : Bool :=
  let cs2 := dropMarker (s.data.dropWhile isPySpace)
  tailFrom (matchTypeP cs2) || tailFrom (matchTypeQ cs2) || tailFrom (matchTypeT cs2)

/-- Modelled from the spec: the generic `NMEASentence.parse` of the
pynmea2 framework is not under `src/`; by the contract of spec section
4.1 it produces a sentence record exactly when the (in-`src/`, adapted)
`sentence_re` matches the raw line, and fails with
`MalformedSentenceError` otherwise. -/
def parse_produces_record (s : String) : Bool := sentence_re_match s

/-- All characters whitespace. -/
def SpaceStr (l : List Char) : Prop := ∀ c ∈ l, isPySpace c = true

/-- Data carries no `*`. -/
def StarFree (l : List Char) : Prop := ∀ c ∈ l, c ≠ '*'

/-- An optional `*HH` checksum. -/
def ChecksumOpt (l : List Char) : Prop :=
  l = [] ∨ ∃ h1 h2, l = ['*', h1, h2] ∧ isHexIC h1 = true ∧ isHexIC h2 = true

/-- A four-letter proprietary identifier prefixed with `P`. -/
def IsTypeP (l : List Char) : Prop :=
  ∃ p a b c, l = [p, a, b, c] ∧ (p = 'P' ∨ p = 'p') ∧
    isWordChar a = true ∧ isWordChar b = true ∧ isWordChar c = true

/-- A query sentence pattern (talker/listener pair, `Q`, and a type). -/
def IsTypeQ (l : List Char) : Prop :=
  ∃ a b c d q e f g, l = [a, b, c, d, q, ',', e, f, g] ∧
    isWordChar a = true ∧ isWordChar b = true ∧ isWordChar c = true ∧
    isWordChar d = true ∧ (q = 'Q' ∨ q = 'q') ∧
    isWordChar e = true ∧ isWordChar f = true ∧ isWordChar g = true

/-- A five-character talker sentence followed by its comma. -/
def IsTypeT (l : List Char) : Prop :=
  ∃ a b c d e, l = [a, b, c, d, e, ','] ∧
    isWordChar a = true ∧ isWordChar b = true ∧ isWordChar c = true ∧
    isWordChar d = true ∧ isWordChar e = true

/-- A recognized sentence-type identifier. -/
def IsSentenceType (l : List Char) : Prop := IsTypeP l ∨ IsTypeQ l ∨ IsTypeT l

/-- The line grammar exactly as claim C6 states it: an optional leading
`$` or `!`, a recognized sentence-type identifier, comma-delimited data,
an optional `*HH` checksum, and optional trailing whitespace/newline. -/
def claim_sentence_grammar (s : String) : Prop :=
  ∃ mk ty d chk tr,
    s.data = mk ++ ty ++ d ++ chk ++ tr ∧
    (mk = [] ∨ mk = ['$'] ∨ mk = ['!']) ∧
    IsSentenceType ty ∧ StarFree d ∧ ChecksumOpt chk ∧ SpaceStr tr

/-- The line grammar the code actually implements: claim C6's grammar
widened by optional leading whitespace (`^\s*`) and by `|` as a third
admissible start marker (the regex character class `[\$|\!]` contains a
literal `|`). -/
def amended_sentence_grammar (s : String) : Prop :=
  ∃ ws mk ty d chk tr,
    s.data = ws ++ mk ++ ty ++ d ++ chk ++ tr ∧
    SpaceStr ws ∧
    (mk = [] ∨ mk = ['$'] ∨ mk = ['!'] ∨ mk = ['|']) ∧
    IsSentenceType ty ∧ StarFree d ∧ ChecksumOpt chk ∧ SpaceStr tr

/-- Python values flowing through the interpretation loop of
`parse_complete_payload`.  `vfloat` records a successful `float(...)`
coercion of the given text; the IEEE value is opaque to this pipeline,
which only decides whether the coercion succeeds. -/
inductive Value where
  | vint (n : Int)
  | vfloat (src : String)
  | vstr (s : String)
  | vnone
deriving DecidableEq, Repr

/-- A decoder left as the fifth tuple item by `_ais.py` ("a function or
list", line 219): a callable (`none` when the call raises) or a lookup
table subscripted by the raw value (`none` models the `KeyError` /
`TypeError` of a missing key). -/
inductive Decoder where
  | callback (f : Value → Option Value)
  | table (entries : List (Value × Value))

/-- One item of a raw field tuple: a plain value or a decoder. -/
inductive PyItem where
  | v (x : Value)
  | d (x : Decoder)

/-- Dictionary lookup keyed by raw value. -/
def dictLookup : List (Value × Value) → Value → Option Value
  | [], _ => none
  | (k, w) :: rest, key => if k = key then some w else dictLookup rest key

/-- `field[4](field[1])` at line 224: calling anything but a callable
raises `TypeError`, which the bare `except` catches. -/
def tryCall : PyItem → PyItem → Option PyItem
  | PyItem.d (Decoder.callback f), PyItem.v a => (f a).map PyItem.v
  | _, _ => none

/-- `field[4][field[1]]` at line 227: subscripting succeeds only on a
lookup table holding the key. -/
def trySubscript : PyItem → PyItem → Option PyItem
  | PyItem.d (Decoder.table m), PyItem.v a => (dictLookup m a).map PyItem.v
  | _, _ => none

/-- Strip Python whitespace from both ends. -/
def pyStrip (l : List Char) : List Char :=
  ((l.dropWhile isPySpace).reverse.dropWhile isPySpace).reverse

/-- A non-empty all-digit string and its value. -/
def digitsVal? (l : List Char) : Option Nat :=
  if l ≠ [] ∧ l.all Char.isDigit then
    some (l.foldl (fun a c => a * 10 + (c.toNat - 48)) 0)
  else none

/-- `int(val)` on text (line 233): optional surrounding whitespace, an
optional sign, then decimal digits; `none` models the `ValueError` the
bare `except` catches.  (Underscore grouping and non-ASCII digits are not
exercised and are elided.) -/
def pyIntOfString (s : String) : Option Int :=
  match pyStrip s.data with
  | '-' :: rest => (digitsVal? rest).map (fun n => -(n : Int))
  | '+' :: rest => (digitsVal? rest).map (fun n => (n : Int))
  | rest => (digitsVal? rest).map (fun n => (n : Int))

def isDigits (l : List Char) : Bool := !l.isEmpty && l.all Char.isDigit

/-- Mantissa of a float literal: digits with at most one dot and at
least one digit. -/
def mantOk (l : List Char) : Bool :=
  let ip := l.takeWhile (fun c => c ≠ '.')
  let rest := l.dropWhile (fun c => c ≠ '.')
  match rest with
  | [] => isDigits ip
  | _ :: fp => ip.all Char.isDigit && fp.all Char.isDigit && (!ip.isEmpty || !fp.isEmpty)

def expPartOk : List Char → Bool
  | '+' :: r => isDigits r
  | '-' :: r => isDigits r
  | r => isDigits r

/-- `float(val)` succeeds (line 236): optional surrounding whitespace and
sign, then a decimal mantissa with optional exponent, or one of the
special words `inf`, `infinity`, `nan` (case-insensitive). -/
def pyFloatOk (s : String) : Bool :=
  let cs0 := pyStrip s.data
  let cs :=
    match cs0 with
    | '+' :: r => r
    | '-' :: r => r
    | r => r
  let low := cs.map Char.toLower
  if low = "inf".data || low = "infinity".data || low = "nan".data then true
  else
    let mant := cs.takeWhile (fun c => c ≠ 'e' && c ≠ 'E')
    let rest := cs.dropWhile (fun c => c ≠ 'e' && c ≠ 'E')
    match rest with
    | [] => mantOk mant
    | _ :: ex => mantOk mant && expPartOk ex

/-- Lines 231-238: a value that is text is coerced to `int` when
possible, else to `float` when possible, else kept as text. -/
def numeric_coerce : PyItem → PyItem
  | PyItem.v (Value.vstr s) =>
    match pyIntOfString s with
    | some n => PyItem.v (Value.vint n)
    | none => if pyFloatOk s then PyItem.v (Value.vfloat s) else PyItem.v (Value.vstr s)
  | x => x

/-- The body of the interpretation loop (lines 221-241): a raw field
tuple of length exactly five is decoded through the call / subscript /
raw-value cascade and numeric coercion, then re-emitted as
`[varname, value, type, display name, raw value, decoder]`
(`field[4:]` re-appends the decoder); any other tuple is emitted
unchanged (the `list(field)` conversion is the identity here). -/
def interpret_field (field : List PyItem) : List PyItem :=
  match field with
  | [f0, f1, f2, f3, f4] =>
    let val0 :=
      match tryCall f4 f1 with
      | some v => v
      | none =>
        match trySubscript f4 f1 with
        | some v => v
        | none => f1
    let val := numeric_coerce val0
    [f0, val, f2, f3, f1, f4]
  | other => other

/-- The loop of `VDM.parse_complete_payload` (lines 220-242) over the raw
field tuples returned by the external `aivdm_unpack` (the six-bit
unarmoring and the recursive unpacking are the opaque external decoder of
spec section 6 and happen before this loop). -/
def interpret_sub_fields (sub_fields : List (List PyItem)) : List (List PyItem) :=
  sub_fields.map interpret_field

/-- Claim-side decoder semantics (C7): a function decoder that succeeds
yields its result, a lookup table containing the raw value as a key
yields its entry, otherwise the raw value itself is kept. -/
def claim_decoded_value : Decoder → Value → Value
  | Decoder.callback f, raw => match f raw with | some r => r | none => raw
  | Decoder.table m, raw => match dictLookup m raw with | some r => r | none => raw

/-- Claim-side coercion (C7): a text value becomes an integer if
possible, else a floating-point number if possible, else stays text;
non-text values are untouched. -/
def claim_coerce : Value → Value
  | Value.vstr s =>
    match pyIntOfString s with
    | some n => Value.vint n
    | none => if pyFloatOk s then Value.vfloat s else Value.vstr s
  | x => x

/-- Well-formedness of the ordered-dictionary model: keys are pairwise
distinct (automatic for a Python dict). -/
def WFMap (l : List Slot) : Prop := (l.map Prod.fst).Nodup

instance (l : List Slot) : Decidable (WFMap l) := by
  unfold WFMap; infer_instance

@[simp] theorem odGet_nil (key : String) : odGet [] key = none := rfl

@[simp] theorem odGet_odSet_self (l : List Slot) (k : String) (v : VDMRecord) :
    odGet (odSet l k v) k = some v := by
  induction l with
  | nil => simp [odSet, odGet]
  | cons hd tl ih =>
    obtain ⟨k1, v1⟩ := hd
    by_cases h : k1 = k <;> simp [odSet, odGet, h, ih]

theorem odSet_eq_append (l : List Slot) (k : String) (v : VDMRecord)
    (h : odGet l k = none) : odSet l k v = l ++ [(k, v)] := by
  induction l with
  | nil => simp [odSet]
  | cons hd tl ih =>
    obtain ⟨k1, v1⟩ := hd
    by_cases hk : k1 = k
    · simp [odGet, hk] at h
    · simp [odGet, hk] at h
      simp [odSet, hk, ih h]

theorem odSet_length_of_mem (l : List Slot) (k : String) (v w : VDMRecord)
    (h : odGet l k = some w) : (odSet l k v).length = l.length := by
  induction l with
  | nil => simp [odGet] at h
  | cons hd tl ih =>
    obtain ⟨k1, v1⟩ := hd
    by_cases hk : k1 = k
    · simp [odSet, hk]
    · simp [odGet, hk] at h
      simp [odSet, hk, ih h]

theorem odPop?_of_get_some (l : List Slot) (k : String) (w : VDMRecord)
    (h : odGet l k = some w) : odPop? l k = some (odErase l k) := by
  induction l with
  | nil => simp [odGet] at h
  | cons hd tl ih =>
    obtain ⟨k1, v1⟩ := hd
    by_cases hk : k1 = k
    · simp [odPop?, odErase, hk]
    · simp [odGet, hk] at h
      simp [odPop?, odErase, hk, ih h]

theorem odPop?_of_get_none (l : List Slot) (k : String)
    (h : odGet l k = none) : odPop? l k = none := by
  induction l with
  | nil => simp [odPop?]
  | cons hd tl ih =>
    obtain ⟨k1, v1⟩ := hd
    by_cases hk : k1 = k
    · simp [odGet, hk] at h
    · simp [odGet, hk] at h
      simp [odPop?, hk, ih h]

@[simp] theorem odErase_odSet (l : List Slot) (k : String) (v : VDMRecord) :
    odErase (odSet l k v) k = odErase l k := by
  induction l with
  | nil => simp [odSet, odErase]
  | cons hd tl ih =>
    obtain ⟨k1, v1⟩ := hd
    by_cases hk : k1 = k <;> simp [odSet, odErase, hk, ih]

@[simp] theorem odUpdate_odSet (l : List Slot) (k : String) (v w : VDMRecord) :
    odUpdate (odSet l k v) k w = odSet l k w := by
  induction l with
  | nil => simp [odSet, odUpdate]
  | cons hd tl ih =>
    obtain ⟨k1, v1⟩ := hd
    by_cases hk : k1 = k <;> simp [odSet, odUpdate, hk, ih]

theorem odGet_odUpdate_self (l : List Slot) (k : String) (v : VDMRecord) :
    odGet (odUpdate l k v) k = (odGet l k).map (fun _ => v) := by
  induction l with
  | nil => simp [odUpdate]
  | cons hd tl ih =>
    obtain ⟨k1, v1⟩ := hd
    by_cases hk : k1 = k <;> simp [odUpdate, odGet, hk, ih]

theorem odGet_append_of_get_none (l l2 : List Slot) (k : String)
    (h : odGet l k = none) : odGet (l ++ l2) k = odGet l2 k := by
  induction l with
  | nil => simp
  | cons hd tl ih =>
    obtain ⟨k1, v1⟩ := hd
    by_cases hk : k1 = k
    · simp [odGet, hk] at h
    · simp [odGet, hk] at h
      simp [odGet, hk, ih h]

theorem odUpdate_append_single (l : List Slot) (k : String) (v w : VDMRecord)
    (h : odGet l k = none) : odUpdate (l ++ [(k, v)]) k w = l ++ [(k, w)] := by
  induction l with
  | nil => simp [odUpdate]
  | cons hd tl ih =>
    obtain ⟨k1, v1⟩ := hd
    by_cases hk : k1 = k
    · simp [odGet, hk] at h
    · simp [odGet, hk] at h
      simp [odUpdate, hk, ih h]

theorem odPop?_append_single (l : List Slot) (k : String) (v : VDMRecord)
    (h : odGet l k = none) : odPop? (l ++ [(k, v)]) k = some l := by
  induction l with
  | nil => simp [odPop?]
  | cons hd tl ih =>
    obtain ⟨k1, v1⟩ := hd
    by_cases hk : k1 = k
    · simp [odGet, hk] at h
    · simp [odGet, hk] at h
      simp [odPop?, hk, ih h]

theorem odGet_odErase_self (l : List Slot) (k : String) (hWF : WFMap l) :
    odGet (odErase l k) k = none := by
  induction l with
  | nil => simp [odErase]
  | cons hd tl ih =>
    obtain ⟨k1, v1⟩ := hd
    simp only [WFMap, List.map_cons, List.nodup_cons] at hWF
    by_cases hk : k1 = k
    · subst hk
      simp [odErase]
      cases hget : odGet tl k1 with
      | none => rfl
      | some w =>
        exfalso
        apply hWF.1
        clear ih hWF
        induction tl with
        | nil => simp [odGet] at hget
        | cons hd2 tl2 ih2 =>
          obtain ⟨k2, v2⟩ := hd2
          by_cases hk2 : k2 = k1
          · simp [hk2]
          · simp [odGet, hk2] at hget
            simp [ih2 hget]
    · simp [odErase, hk, odGet, ih hWF.2]

@[simp] theorem evictStep_none (m : List Slot) : evictStep m none = (m, []) := by
  simp [evictStep, exceeds]

@[simp] theorem odPop?_odSet_self (l : List Slot) (k : String) (v : VDMRecord) :
    odPop? (odSet l k v) k = some (odErase l k) := by
  rw [odPop?_of_get_some (odSet l k v) k v (odGet_odSet_self l k v), odErase_odSet]

/-- Shared helper: a fragment-1 record with a non-empty payload is
accepted without error against the default unbounded limit; it completes
immediately when its fragment count is 1 and otherwise replaces any chain
for its id with a fresh one holding only its own chunk. -/
theorem accept_frag1 (m : List Slot) (r : VDMRecord)
    (hp : r.payload ≠ "") (hf : r.fragment = 1) :
    accept ⟨m, none⟩ r =
      ((if r.count = 1 then ParseOutcome.complete r.payload r.fill_bits
        else ParseOutcome.pending),
       ⟨(if r.count = 1 then odErase m r.sequential_msg_id
         else odSet m r.sequential_msg_id r), none⟩,
       []) := by
  obtain ⟨c, f, id, p, fb⟩ := r
  simp only at hf hp ⊢
  subst hf
  by_cases hc : c = 1 <;>
    simp [accept, hp, parse_payload, hc, String.empty_append]

/-- Claim C8: a sentence record with an empty payload chunk is returned
unparsed immediately; the reassembly state is untouched and no
notification is emitted. -/
theorem C8_empty_payload_frame (st : AisState) (r : VDMRecord)
    (h : r.payload = "") :
    accept st r = (ParseOutcome.unparsed, st, []) := by
  simp [accept, h]

theorem C8_empty_payload_frame_witness :
    accept ⟨[("5", ⟨2, 1, "5", "qq", 0⟩)], none⟩ ⟨2, 2, "5", "", 0⟩ =
      (ParseOutcome.unparsed, ⟨[("5", ⟨2, 1, "5", "qq", 0⟩)], none⟩, []) :=
  C8_empty_payload_frame ⟨[("5", ⟨2, 1, "5", "qq", 0⟩)], none⟩ ⟨2, 2, "5", "", 0⟩ rfl

/-- Claim C3: a single-fragment sentence (fragment count 1, fragment
number 1) with a non-empty payload completes on that very call with its
own payload and fill bits, and afterwards no slot for its sequential id
is in the reassembly map (default unbounded `SEQ_LIMIT`). -/
theorem C3_single_fragment_completes (m : List Slot) (r : VDMRecord)
    (hWF : WFMap m) (hp : r.payload ≠ "") (hc : r.count = 1) (hf : r.fragment = 1) :
    accept ⟨m, none⟩ r =
      (ParseOutcome.complete r.payload r.fill_bits,
       ⟨odErase m r.sequential_msg_id, none⟩, []) ∧
    odGet (odErase m r.sequential_msg_id) r.sequential_msg_id = none := by
  refine ⟨?_, odGet_odErase_self m r.sequential_msg_id hWF⟩
  rw [accept_frag1 m r hp hf]
  simp [hc]

theorem C3_single_fragment_completes_witness :
    accept ⟨[], none⟩ ⟨1, 1, "A", "X", 4⟩ =
      (ParseOutcome.complete "X" 4, ⟨[], none⟩, []) ∧
    odGet (odErase [] "A") "A" = none :=
  C3_single_fragment_completes [] ⟨1, 1, "A", "X", 4⟩ (by decide) (by decide) rfl rfl

/-- Claim C4: accepting a fragment-1 record for a sequential id that
already holds an incomplete chain succeeds without error; the stored
slot afterwards holds only the new record's chunk (the old chain's
accumulated payload is discarded and the old chain is never
completed). -/
theorem C4_fresh_start_discards (m : List Slot) (r old : VDMRecord)
    (_hold : odGet m r.sequential_msg_id = some old)
    (hp : r.payload ≠ "") (hf : r.fragment = 1) :
    accept ⟨m, none⟩ r =
      ((if r.count = 1 then ParseOutcome.complete r.payload r.fill_bits
        else ParseOutcome.pending),
       ⟨(if r.count = 1 then odErase m r.sequential_msg_id
         else odSet m r.sequential_msg_id r), none⟩, []) ∧
    (r.count ≠ 1 →
      odGet (accept ⟨m, none⟩ r).2.1.SEQUENTIAL_MSG r.sequential_msg_id = some r) := by
  have h1 := accept_frag1 m r hp hf
  refine ⟨h1, fun hc => ?_⟩
  rw [h1]
  simp [hc]

theorem C4_fresh_start_discards_witness :
    accept ⟨[("A", ⟨3, 1, "A", "old", 0⟩)], none⟩ ⟨2, 1, "A", "new", 0⟩ =
      (ParseOutcome.pending, ⟨[("A", ⟨2, 1, "A", "new", 0⟩)], none⟩, []) ∧
    odGet (accept ⟨[("A", ⟨3, 1, "A", "old", 0⟩)], none⟩
        ⟨2, 1, "A", "new", 0⟩).2.1.SEQUENTIAL_MSG "A" = some ⟨2, 1, "A", "new", 0⟩ := by
  have h := C4_fresh_start_discards [("A", ⟨3, 1, "A", "old", 0⟩)]
    ⟨2, 1, "A", "new", 0⟩ ⟨3, 1, "A", "old", 0⟩ rfl (by decide) rfl
  exact ⟨h.1, h.2 (by decide)⟩

/-- Claim C2: a fragment whose number differs from the expected next one
(previous slot's fragment plus one; `1` with no prior slot or on a
fragment-1 start) fails with `IncompleteMessageError` naming that
expected number, the slot for its id is removed by the time the error is
raised, and a subsequent fragment-1 record for the same id then starts a
fresh chain without error. -/
theorem C2_out_of_order (m : List Slot) (r : VDMRecord)
    (hp : r.payload ≠ "") (hne : r.fragment ≠ expected_next m r) :
    accept ⟨m, none⟩ r =
      (ParseOutcome.incompleteError (expected_next m r),
       ⟨odErase m r.sequential_msg_id, none⟩, []) ∧
    (∀ r1 : VDMRecord, r1.sequential_msg_id = r.sequential_msg_id →
      r1.payload ≠ "" → r1.fragment = 1 →
      (accept ⟨odErase m r.sequential_msg_id, none⟩ r1).1 =
        (if r1.count = 1 then ParseOutcome.complete r1.payload r1.fill_bits
         else ParseOutcome.pending)) := by
  have hf1 : r.fragment ≠ 1 := by
    intro h
    exact hne (by simp [expected_next, h])
  constructor
  · cases hget : odGet m r.sequential_msg_id with
    | none =>
      have hexp : expected_next m r = 1 := by simp [expected_next, hf1, hget]
      rw [hexp]
      have hcond : (0 : Nat) + 1 ≠ r.fragment := by
        intro h
        exact hf1 h.symm
      simp [accept, hp, parse_payload, hf1, hget, hcond]
    | some p =>
      have hexp : expected_next m r = p.fragment + 1 := by
        simp [expected_next, hf1, hget]
      rw [hexp]
      by_cases hcond : p.fragment + 1 = r.fragment
      · exact absurd hcond.symm (by rw [hexp] at hne; exact hne)
      · simp [accept, hp, parse_payload, hf1, hget, hcond]
  · intro r1 hid hp1 hf1'
    rw [accept_frag1 _ r1 hp1 hf1']

theorem runAccepts_cons (st : AisState) (r : VDMRecord) (rs : List VDMRecord) :
    runAccepts st (r :: rs) =
      ((runAccepts (accept st r).2.1 rs).1,
       some (((runAccepts (accept st r).2.1 rs).2).getD (accept st r).1)) := rfl

/-- Shared helper for C1: with a single in-flight slot holding the chain
accumulated up to fragment `j`, delivering the remaining fragments
`j+1 .. n` in order completes the message with the accumulated payload
followed by the remaining chunks, and empties the map. -/
theorem run_chain (id : String) (fb : Nat) :
    ∀ (chunks : List String) (j : Nat) (P : String) (fb0 n : Nat),
      n = j + chunks.length → chunks ≠ [] → (∀ c ∈ chunks, c ≠ "") → 1 ≤ j →
      runAccepts ⟨[(id, ⟨n, j, id, P, fb0⟩)], none⟩
          (mkFragments id n fb (j + 1) chunks)
        = (⟨[], none⟩, some (ParseOutcome.complete (P ++ concatAll chunks) fb)) := by
  intro chunks
  induction chunks with
  | nil => intro j P fb0 n _ hne; exact absurd rfl hne
  | cons c cs ih =>
    intro j P fb0 n hlen _ hall hj
    have hc : c ≠ "" := hall c (List.mem_cons_self c cs)
    have hacc : accept ⟨[(id, ⟨n, j, id, P, fb0⟩)], none⟩ ⟨n, j + 1, id, c, fb⟩ =
        ((if n = j + 1 then ParseOutcome.complete (P ++ c) fb else ParseOutcome.pending),
         ⟨(if n = j + 1 then [] else [(id, ⟨n, j + 1, id, P ++ c, fb⟩)]), none⟩,
         []) := by
      have hf : j + 1 ≠ 1 := by omega
      by_cases hcomp : n = j + 1 <;>
        simp [accept, hc, parse_payload, hf, odGet, odSet, odUpdate, odPop?, hcomp]
    cases cs with
    | nil =>
      have hn1 : n = j + 1 := by simpa using hlen
      subst hn1
      simp [mkFragments, runAccepts, hacc, concatAll, String.append_empty]
    | cons c2 cs2 =>
      have hne2 : n ≠ j + 1 := by
        simp only [List.length_cons] at hlen
        omega
      have hstep := ih (j + 1) (P ++ c) fb n
        (by simp only [List.length_cons] at hlen ⊢; omega)
        (by simp)
        (fun x hx => hall x (List.mem_cons_of_mem c hx))
        (by omega)
      simp only [mkFragments] at hstep ⊢
      rw [runAccepts_cons, hacc]
      simp only [if_neg hne2]
      rw [hstep]
      simp [concatAll, String.append_assoc]

/-- Claim C1: a valid n-fragment sequence delivered in order (fragment
numbers 1..n, common sequential id, common fragment count n, non-empty
chunks) ends with the final `accept` returning a complete result whose
payload is the in-order concatenation of all chunks, and with no slot
left in the reassembly map. -/
theorem C1_in_order_reassembly (id : String) (fb : Nat) (chunks : List String)
    (hne : chunks ≠ []) (hall : ∀ c ∈ chunks, c ≠ "") :
    (runAccepts ⟨[], none⟩ (mkFragments id chunks.length fb 1 chunks)).2
      = some (ParseOutcome.complete (concatAll chunks) fb) ∧
    (runAccepts ⟨[], none⟩ (mkFragments id chunks.length fb 1 chunks)).1.SEQUENTIAL_MSG
      = [] := by
  obtain ⟨c, cs, rfl⟩ := List.exists_cons_of_ne_nil hne
  have hc : c ≠ "" := hall c (List.mem_cons_self c cs)
  have hacc := accept_frag1 [] (⟨(c :: cs).length, 1, id, c, fb⟩ : VDMRecord) hc rfl
  simp only [odErase, odSet] at hacc
  cases cs with
  | nil =>
    simp only [mkFragments, runAccepts]
    rw [hacc]
    simp [concatAll, String.append_empty]
  | cons c2 cs2 =>
    have hne1 : (c :: c2 :: cs2).length ≠ 1 := by simp
    have hstep := run_chain id fb (c2 :: cs2) 1 c fb ((c :: c2 :: cs2).length)
      (by simp only [List.length_cons]; omega) (by simp)
      (fun x hx => hall x (List.mem_cons_of_mem c hx))
      (le_refl 1)
    simp only [mkFragments] at hstep ⊢
    rw [runAccepts_cons, hacc]
    simp only [if_neg hne1]
    rw [hstep]
    simp [concatAll]

theorem C1_in_order_reassembly_witness :
    (runAccepts ⟨[], none⟩ (mkFragments "3" 2 2 1 ["AAAA", "BBBB"])).2
      = some (ParseOutcome.complete "AAAABBBB" 2) ∧
    (runAccepts ⟨[], none⟩ (mkFragments "3" 2 2 1 ["AAAA", "BBBB"])).1.SEQUENTIAL_MSG
      = [] := by
  have h := C1_in_order_reassembly "3" 2 ["AAAA", "BBBB"] (by decide) (by decide)
  simpa using h

theorem C2_out_of_order_witness :
    accept ⟨[], none⟩ ⟨2, 2, "9", "X", 0⟩ =
      (ParseOutcome.incompleteError 1, ⟨[], none⟩, []) ∧
    (accept ⟨[], none⟩ ⟨2, 1, "9", "Y", 0⟩).1 = ParseOutcome.pending := by
  have h := C2_out_of_order [] ⟨2, 2, "9", "X", 0⟩ (by decide) (by decide)
  exact ⟨h.1, h.2 ⟨2, 1, "9", "Y", 0⟩ rfl (by decide) rfl⟩

theorem odGet_tail_none (a : Slot) (l : List Slot) (key : String)
    (h : odGet (a :: l) key = none) : odGet l key = none := by
  obtain ⟨k1, v1⟩ := a
  by_cases hk : k1 = key
  · simp [odGet, hk] at h
  · simpa [odGet, hk] using h

theorem evictStep_le (m : List Slot) (k : Nat) (h : m.length ≤ k) :
    evictStep m (some k) = (m, []) := by
  simp [evictStep, exceeds, Nat.not_lt.mpr h]

theorem evictStep_cons_exceed (a : Slot) (l : List Slot) (k : Nat)
    (h : k < (a :: l).length) : evictStep (a :: l) (some k) = (l, [a.1]) := by
  obtain ⟨k1, v1⟩ := a
  have h2 : k < l.length + 1 := by simpa using h
  simp [evictStep, exceeds, h2]

/-- Shared helper: when the slot for the current record's id is present
after the insert/evict steps, neither `pop` of `parse_payload` can raise
`KeyError`. -/
theorem parse_payload_not_keyError (st : AisState) (r : VDMRecord)
    (hx : odGet (evictStep (odSet st.SEQUENTIAL_MSG r.sequential_msg_id r)
            st.SEQ_LIMIT).1 r.sequential_msg_id = some r) :
    (parse_payload st r).1 ≠ ParseOutcome.keyError := by
  have h2 : ∀ v : VDMRecord,
      odPop? (odUpdate (evictStep (odSet st.SEQUENTIAL_MSG r.sequential_msg_id r)
          st.SEQ_LIMIT).1 r.sequential_msg_id v) r.sequential_msg_id =
        some (odErase (odUpdate (evictStep (odSet st.SEQUENTIAL_MSG r.sequential_msg_id r)
          st.SEQ_LIMIT).1 r.sequential_msg_id v) r.sequential_msg_id) := by
    intro v
    apply odPop?_of_get_some _ _ v
    rw [odGet_odUpdate_self, hx]
    rfl
  simp only [parse_payload, odPop?_of_get_some _ _ _ hx, h2]
  repeat' split
  all_goals simp

/-- Shared helper: the notification list returned by `parse_payload` is
exactly what the capacity-eviction step produced, in every branch. -/
theorem parse_payload_notes (st : AisState) (r : VDMRecord) :
    (parse_payload st r).2.2 =
      (evictStep (odSet st.SEQUENTIAL_MSG r.sequential_msg_id r) st.SEQ_LIMIT).2 := by
  simp only [parse_payload]
  repeat' split
  all_goals rfl

/-- Claim C9: with a capacity limit of at least 1 and the reachable-state
invariant that at most `SEQ_LIMIT` slots are in flight, the slot that
`parse_payload` pops for the current record's id (on an ordering
violation or on completion) is always present, so the removal never
raises; with capacity limit 0 the eviction removes the just-inserted slot
itself and the later removal fails with a `KeyError` instead of the
specified outcome (concretely on a single-fragment record for id "A"). -/
theorem C9_pop_safety :
    (∀ (m : List Slot) (k : Nat) (r : VDMRecord),
        1 ≤ k → m.length ≤ k → r.payload ≠ "" →
        (accept ⟨m, some k⟩ r).1 ≠ ParseOutcome.keyError) ∧
    accept ⟨[], some 0⟩ ⟨1, 1, "A", "X", 0⟩ =
      (ParseOutcome.keyError, ⟨[], some 0⟩, ["A"]) := by
  constructor
  · intro m k r hk hlen hp
    have hkey : odGet (evictStep (odSet m r.sequential_msg_id r) (some k)).1
        r.sequential_msg_id = some r := by
      cases hget : odGet m r.sequential_msg_id with
      | some w =>
        have hl : (odSet m r.sequential_msg_id r).length = m.length :=
          odSet_length_of_mem m _ r w hget
        rw [evictStep_le _ _ (by omega)]
        exact odGet_odSet_self m _ r
      | none =>
        rw [odSet_eq_append m _ r hget]
        by_cases hfull : m.length = k
        · cases m with
          | nil => simp only [List.length_nil] at hfull; omega
          | cons mh mt =>
            simp only [List.length_cons] at hfull
            simp only [List.cons_append]
            rw [evictStep_cons_exceed _ _ k
              (by simp only [List.length_cons, List.length_append, List.length_nil]; omega)]
            rw [odGet_append_of_get_none _ _ _ (odGet_tail_none mh mt _ hget)]
            simp [odGet]
        · rw [evictStep_le _ _
            (by simp only [List.length_append, List.length_cons, List.length_nil]; omega)]
          rw [odGet_append_of_get_none _ _ _ hget]
          simp [odGet]
    simp only [accept, if_neg hp]
    exact parse_payload_not_keyError ⟨m, some k⟩ r hkey
  · decide

theorem C9_pop_safety_witness :
    (accept ⟨[("A", ⟨2, 1, "A", "aa", 0⟩)], some 1⟩ ⟨2, 2, "A", "bb", 0⟩).1 ≠
      ParseOutcome.keyError ∧
    accept ⟨[], some 0⟩ ⟨1, 1, "A", "X", 0⟩ =
      (ParseOutcome.keyError, ⟨[], some 0⟩, ["A"]) :=
  ⟨C9_pop_safety.1 [("A", ⟨2, 1, "A", "aa", 0⟩)] 1 ⟨2, 2, "A", "bb", 0⟩
      (by decide) (by decide) (by decide),
   C9_pop_safety.2⟩

/-- Claim C5 counterexample: with capacity limit 1 and one in-flight
slot, accepting an out-of-order fragment for a second id makes the map
exceed the limit — the oldest slot is evicted and its notification
emitted — yet the very same call raises `IncompleteMessageError`,
contradicting the claim's "no error is raised". -/
theorem C5_eviction_error_counterexample :
    accept (accept ⟨[], some 1⟩ ⟨2, 1, "A", "aa", 0⟩).2.1 ⟨2, 2, "B", "bb", 0⟩ =
      (ParseOutcome.incompleteError 1, ⟨[], some 1⟩, ["A"]) := by decide

/-- Claim C5 (amended): when accepting a record for a fresh sequential id
overflows a capacity limit of at least 1 (the map already holding
`SEQ_LIMIT` slots), exactly the oldest slot is evicted and exactly one
notification naming its id is emitted, whatever the fragment number; the
eviction itself raises no error, and when the record also satisfies the
ordering rule (a fragment-1 start, its id being fresh) no error is raised
at all: the call completes a single-fragment record and is pending
otherwise, the map holding the surviving slots. -/
theorem C5_capacity_eviction_amended (mh : Slot) (mt : List Slot) (k : Nat)
    (r : VDMRecord)
    (hlen : (mh :: mt).length = k)
    (hnew : odGet (mh :: mt) r.sequential_msg_id = none)
    (hp : r.payload ≠ "") :
    (accept ⟨mh :: mt, some k⟩ r).2.2 = [mh.1] ∧
    (r.fragment = 1 →
      accept ⟨mh :: mt, some k⟩ r =
        ((if r.count = 1 then ParseOutcome.complete r.payload r.fill_bits
          else ParseOutcome.pending),
         ⟨(if r.count = 1 then mt
           else mt ++ [(r.sequential_msg_id, r)]), some k⟩, [mh.1])) := by
  have hm1 : odSet (mh :: mt) r.sequential_msg_id r =
      mh :: (mt ++ [(r.sequential_msg_id, r)]) := by
    rw [odSet_eq_append _ _ _ hnew]
    simp
  have hev : evictStep (mh :: (mt ++ [(r.sequential_msg_id, r)])) (some k) =
      (mt ++ [(r.sequential_msg_id, r)], [mh.1]) := by
    apply evictStep_cons_exceed
    simp only [List.length_cons, List.length_append, List.length_nil] at hlen ⊢
    omega
  have hmt : odGet mt r.sequential_msg_id = none := odGet_tail_none mh mt _ hnew
  constructor
  · simp only [accept, if_neg hp]
    rw [parse_payload_notes]
    simp only [AisState.SEQ_LIMIT, AisState.SEQUENTIAL_MSG] at hm1 hev ⊢
    rw [hm1, hev]
  · intro hf
    obtain ⟨c, f, id, p, fb⟩ := r
    simp only at hf hp hmt hm1 hev hnew ⊢
    subst hf
    by_cases hc : c = 1
    · subst hc
      simp [accept, hp, parse_payload, hm1, hev, hmt,
            odUpdate_append_single, odPop?_append_single, String.empty_append]
    · simp [accept, hp, parse_payload, hm1, hev, hc, hmt,
            odUpdate_append_single, odPop?_append_single, String.empty_append]

theorem C5_capacity_eviction_amended_witness :
    (accept ⟨[("A", ⟨2, 1, "A", "aa", 0⟩)], some 1⟩ ⟨2, 1, "B", "bb", 0⟩).2.2 = ["A"] ∧
    accept ⟨[("A", ⟨2, 1, "A", "aa", 0⟩)], some 1⟩ ⟨2, 1, "B", "bb", 0⟩ =
      (ParseOutcome.pending, ⟨[("B", ⟨2, 1, "B", "bb", 0⟩)], some 1⟩, ["A"]) := by
  have h := C5_capacity_eviction_amended ("A", ⟨2, 1, "A", "aa", 0⟩) [] 1
    ⟨2, 1, "B", "bb", 0⟩ rfl rfl (by decide)
  exact ⟨h.1, by simpa using h.2 rfl⟩

theorem word_not_space (c : Char) (h : isWordChar c = true) : isPySpace c = false := by
  cases hb : isPySpace c with
  | false => rfl
  | true =>
    exfalso
    simp only [isPySpace, Bool.or_eq_true, decide_eq_true_eq] at hb
    rcases hb with ((((rfl | rfl) | rfl) | rfl) | rfl) | rfl <;> exact absurd h (by decide)

theorem word_not_marker (c : Char) (h : isWordChar c = true) :
    (c = '$' || c = '|' || c = '!') = false := by
  cases hb : (c = '$' || c = '|' || c = '!') with
  | false => rfl
  | true =>
    exfalso
    simp only [Bool.or_eq_true, decide_eq_true_eq] at hb
    rcases hb with (rfl | rfl) | rfl <;> exact absurd h (by decide)

theorem typeHead_word (ty : List Char) (h : IsSentenceType ty) :
    ∃ c cs, ty = c :: cs ∧ isWordChar c = true := by
  rcases h with hP | hQ | hT
  · obtain ⟨p, a, b, c, rfl, hp, -⟩ := hP
    refine ⟨p, _, rfl, ?_⟩
    rcases hp with rfl | rfl <;> decide
  · obtain ⟨a, b, c, d, q, e, f, g, rfl, ha, -⟩ := hQ
    exact ⟨a, _, rfl, ha⟩
  · obtain ⟨a, b, c, d, e, rfl, ha, -⟩ := hT
    exact ⟨a, _, rfl, ha⟩

theorem dropWhile_space_prefix : ∀ (ws X : List Char), SpaceStr ws →
    (∀ c cs, X = c :: cs → isPySpace c = false) →
    (ws ++ X).dropWhile isPySpace = X := by
  intro ws
  induction ws with
  | nil =>
    intro X _ hX
    cases X with
    | nil => rfl
    | cons c cs => simp [List.dropWhile_cons, hX c cs rfl]
  | cons w ws2 ih =>
    intro X hws hX
    have hw : isPySpace w = true := hws w (List.mem_cons_self _ _)
    simp only [List.cons_append, List.dropWhile_cons, hw, if_true]
    exact ih X (fun x hx => hws x (List.mem_cons_of_mem _ hx)) hX

theorem restOk_of_space : ∀ l : List Char, SpaceStr l → restOk l = true := by
  intro l
  induction l with
  | nil => intro _; rfl
  | cons c rest ih =>
    intro h
    have hc : isPySpace c = true := h c (List.mem_cons_self _ _)
    have hcs : ¬(c = '*') := by
      intro hh
      subst hh
      exact absurd hc (by decide)
    simp only [restOk, if_neg hcs]
    exact ih (fun x hx => h x (List.mem_cons_of_mem _ hx))

theorem restOk_complete (chk tr : List Char) (hchk : ChecksumOpt chk) (htr : SpaceStr tr) :
    ∀ d : List Char, StarFree d → restOk (d ++ (chk ++ tr)) = true := by
  intro d
  induction d with
  | nil =>
    intro _
    rcases hchk with rfl | ⟨h1, h2, rfl, hh1, hh2⟩
    · simpa using restOk_of_space tr htr
    · simp only [List.nil_append, List.cons_append, restOk, if_pos rfl]
      simp [hh1, hh2, List.all_eq_true.mpr htr]
  | cons c d2 ih =>
    intro hd
    have hcs : ¬(c = '*') := hd c (List.mem_cons_self _ _)
    simp only [List.cons_append, restOk, if_neg hcs]
    exact ih (fun x hx => hd x (List.mem_cons_of_mem _ hx))

theorem restOk_sound : ∀ l : List Char, restOk l = true →
    ∃ d chk tr, l = d ++ chk ++ tr ∧ StarFree d ∧ ChecksumOpt chk ∧ SpaceStr tr := by
  intro l
  induction l with
  | nil =>
    intro _
    exact ⟨[], [], [], rfl, by intro x hx; simp at hx, Or.inl rfl, by intro x hx; simp at hx⟩
  | cons c rest ih =>
    intro h
    by_cases hc : c = '*'
    · subst hc
      clear ih
      revert h
      cases rest with
      | nil => intro h; simp [restOk] at h
      | cons h1 r2 =>
        cases r2 with
        | nil => intro h; simp [restOk] at h
        | cons h2 t =>
          intro h
          rw [show restOk ('*' :: h1 :: h2 :: t) =
                (isHexIC h1 && isHexIC h2 && t.all isPySpace) from rfl] at h
          simp only [Bool.and_eq_true] at h
          obtain ⟨⟨hh1, hh2⟩, ht⟩ := h
          refine ⟨[], ['*', h1, h2], t, rfl, by intro x hx; simp at hx,
            Or.inr ⟨h1, h2, rfl, hh1, hh2⟩, ?_⟩
          intro x hx
          exact List.all_eq_true.mp ht x hx
    · simp only [restOk, if_neg hc] at h
      obtain ⟨d, chk, tr, rfl, hd, hchk, htr⟩ := ih h
      refine ⟨c :: d, chk, tr, rfl, ?_, hchk, htr⟩
      intro x hx
      rcases List.mem_cons.mp hx with rfl | hx2
      · exact hc
      · exact hd x hx2

theorem matchTypeP_sound (l r : List Char) (h : matchTypeP l = some r) :
    ∃ ty, l = ty ++ r ∧ IsTypeP ty := by
  match l with
  | [] => simp [matchTypeP] at h
  | [x] => simp [matchTypeP] at h
  | [x, y] => simp [matchTypeP] at h
  | [x, y, z] => simp [matchTypeP] at h
  | p :: a :: b :: c :: rest =>
    simp only [matchTypeP] at h
    split at h
    · obtain rfl : rest = r := Option.some.inj h
      rename_i hcond
      simp only [Bool.and_eq_true, Bool.or_eq_true, decide_eq_true_eq] at hcond
      obtain ⟨⟨⟨hp, ha⟩, hb⟩, hc⟩ := hcond
      exact ⟨[p, a, b, c], rfl, p, a, b, c, rfl, hp, ha, hb, hc⟩
    · simp at h

theorem matchTypeP_complete (ty r : List Char) (h : IsTypeP ty) :
    matchTypeP (ty ++ r) = some r := by
  obtain ⟨p, a, b, c, rfl, hp, ha, hb, hc⟩ := h
  rcases hp with rfl | rfl <;> simp [matchTypeP, ha, hb, hc]

theorem matchTypeQ_sound (l r : List Char) (h : matchTypeQ l = some r) :
    ∃ ty, l = ty ++ r ∧ IsTypeQ ty := by
  match l with
  | [] => simp [matchTypeQ] at h
  | [x1] => simp [matchTypeQ] at h
  | [x1, x2] => simp [matchTypeQ] at h
  | [x1, x2, x3] => simp [matchTypeQ] at h
  | [x1, x2, x3, x4] => simp [matchTypeQ] at h
  | [x1, x2, x3, x4, x5] => simp [matchTypeQ] at h
  | [x1, x2, x3, x4, x5, x6] => simp [matchTypeQ] at h
  | [x1, x2, x3, x4, x5, x6, x7] => simp [matchTypeQ] at h
  | [x1, x2, x3, x4, x5, x6, x7, x8] => simp [matchTypeQ] at h
  | a :: b :: c :: d :: q :: comma :: e :: f :: g :: rest =>
    simp only [matchTypeQ] at h
    split at h
    · obtain rfl : rest = r := Option.some.inj h
      rename_i hcond
      simp only [Bool.and_eq_true, Bool.or_eq_true, decide_eq_true_eq] at hcond
      obtain ⟨⟨⟨⟨⟨⟨⟨⟨ha, hb⟩, hc⟩, hd⟩, hq⟩, hcm⟩, he⟩, hf⟩, hg⟩ := hcond
      subst hcm
      exact ⟨[a, b, c, d, q, ',', e, f, g], rfl,
        a, b, c, d, q, e, f, g, rfl, ha, hb, hc, hd, hq, he, hf, hg⟩
    · simp at h

theorem matchTypeQ_complete (ty r : List Char) (h : IsTypeQ ty) :
    matchTypeQ (ty ++ r) = some r := by
  obtain ⟨a, b, c, d, q, e, f, g, rfl, ha, hb, hc, hd, hq, he, hf, hg⟩ := h
  rcases hq with rfl | rfl <;> simp [matchTypeQ, ha, hb, hc, hd, he, hf, hg]

theorem matchTypeT_sound (l r : List Char) (h : matchTypeT l = some r) :
    ∃ ty, l = ty ++ r ∧ IsTypeT ty := by
  match l with
  | [] => simp [matchTypeT] at h
  | [x1] => simp [matchTypeT] at h
  | [x1, x2] => simp [matchTypeT] at h
  | [x1, x2, x3] => simp [matchTypeT] at h
  | [x1, x2, x3, x4] => simp [matchTypeT] at h
  | [x1, x2, x3, x4, x5] => simp [matchTypeT] at h
  | a :: b :: c :: d :: e :: comma :: rest =>
    simp only [matchTypeT] at h
    split at h
    · obtain rfl : rest = r := Option.some.inj h
      rename_i hcond
      simp only [Bool.and_eq_true, Bool.or_eq_true, decide_eq_true_eq] at hcond
      obtain ⟨⟨⟨⟨⟨ha, hb⟩, hc⟩, hd⟩, he⟩, hcm⟩ := hcond
      subst hcm
      exact ⟨[a, b, c, d, e, ','], rfl, a, b, c, d, e, rfl, ha, hb, hc, hd, he⟩
    · simp at h

theorem matchTypeT_complete (ty r : List Char) (h : IsTypeT ty) :
    matchTypeT (ty ++ r) = some r := by
  obtain ⟨a, b, c, d, e, rfl, ha, hb, hc, hd, he⟩ := h
  simp [matchTypeT, ha, hb, hc, hd, he]

/-- Shared helper: after the start marker, the matcher accepts exactly
the strings consisting of a sentence type followed by a well-formed
tail. -/
theorem matcher_tail_sound (cs2 : List Char)
    (h : (tailFrom (matchTypeP cs2) || tailFrom (matchTypeQ cs2) ||
          tailFrom (matchTypeT cs2)) = true) :
    ∃ ty d chk tr, cs2 = ty ++ d ++ chk ++ tr ∧ IsSentenceType ty ∧
      StarFree d ∧ ChecksumOpt chk ∧ SpaceStr tr := by
  simp only [Bool.or_eq_true] at h
  have hone : ∀ (mm : Option (List Char)),
      tailFrom mm = true → ∃ r, mm = some r ∧ restOk r = true := by
    intro mm hmm
    cases mm with
    | none => simp [tailFrom] at hmm
    | some r => exact ⟨r, rfl, hmm⟩
  rcases h with (hA | hB) | hC
  · obtain ⟨r, hm, hr⟩ := hone _ hA
    obtain ⟨ty, rfl, hty⟩ := matchTypeP_sound _ _ hm
    obtain ⟨d, chk, tr, rfl, hd, hchk, htr⟩ := restOk_sound _ hr
    exact ⟨ty, d, chk, tr, by simp, Or.inl hty, hd, hchk, htr⟩
  · obtain ⟨r, hm, hr⟩ := hone _ hB
    obtain ⟨ty, rfl, hty⟩ := matchTypeQ_sound _ _ hm
    obtain ⟨d, chk, tr, rfl, hd, hchk, htr⟩ := restOk_sound _ hr
    exact ⟨ty, d, chk, tr, by simp, Or.inr (Or.inl hty), hd, hchk, htr⟩
  · obtain ⟨r, hm, hr⟩ := hone _ hC
    obtain ⟨ty, rfl, hty⟩ := matchTypeT_sound _ _ hm
    obtain ⟨d, chk, tr, rfl, hd, hchk, htr⟩ := restOk_sound _ hr
    exact ⟨ty, d, chk, tr, by simp, Or.inr (Or.inr hty), hd, hchk, htr⟩

theorem matcher_tail_complete (ty d chk tr : List Char)
    (hty : IsSentenceType ty) (hd : StarFree d) (hchk : ChecksumOpt chk)
    (htr : SpaceStr tr) :
    (tailFrom (matchTypeP (ty ++ (d ++ (chk ++ tr)))) ||
     tailFrom (matchTypeQ (ty ++ (d ++ (chk ++ tr)))) ||
     tailFrom (matchTypeT (ty ++ (d ++ (chk ++ tr))))) = true := by
  have hrest : restOk (d ++ (chk ++ tr)) = true := restOk_complete chk tr hchk htr d hd
  rcases hty with hP | hQ | hT
  · rw [matchTypeP_complete ty (d ++ (chk ++ tr)) hP]
    simp [tailFrom, hrest]
  · rw [matchTypeQ_complete ty (d ++ (chk ++ tr)) hQ]
    simp [tailFrom, hrest]
  · rw [matchTypeT_complete ty (d ++ (chk ++ tr)) hT]
    simp [tailFrom, hrest]

/-- Claim C6 counterexample: the line `|PABC` — a literal pipe before a
proprietary identifier — is parsed by the code (the start-marker
character class `[\$|\!]` of `sentence_re` contains `|`), yet it does not
fit the claim's grammar, which admits only `$` or `!` as the optional
leading character. -/
theorem C6_pipe_marker_counterexample :
    parse_produces_record "|PABC" = true ∧ ¬ claim_sentence_grammar "|PABC" := by
  constructor
  · rfl
  · intro hcl
    obtain ⟨mk, ty, d, chk, tr, hsplit, hmk, hty, hd, hchk, htr⟩ := hcl
    have hdata : "|PABC".data = ['|', 'P', 'A', 'B', 'C'] := rfl
    rw [hdata] at hsplit
    obtain ⟨c0, cs0, hty_shape, hc0⟩ := typeHead_word ty hty
    rcases hmk with rfl | rfl | rfl
    · rw [hty_shape] at hsplit
      simp only [List.nil_append, List.cons_append, List.append_assoc] at hsplit
      injection hsplit with hhead _
      rw [← hhead] at hc0
      exact absurd hc0 (by decide)
    · simp only [List.cons_append, List.append_assoc] at hsplit
      injection hsplit with hhead _
      exact absurd hhead (by decide)
    · simp only [List.cons_append, List.append_assoc] at hsplit
      injection hsplit with hhead _
      exact absurd hhead (by decide)

/-- Claim C6 (amended): a raw line is parsed into a sentence record
exactly when it consists of optional leading whitespace, an optional
`$`, `!` or `|` start marker (the regex class `[\$|\!]` admits a literal
pipe), a recognized sentence-type identifier (`P`-prefixed proprietary,
query, or five-character talker shape), star-free data, an optional
`*HH` checksum, and optional trailing whitespace or newlines. -/
theorem C6_sentence_grammar_amended (s : String) :
    parse_produces_record s = true ↔ amended_sentence_grammar s := by
  constructor
  · intro h
    simp only [parse_produces_record, sentence_re_match] at h
    have hsplit0 : s.data.takeWhile isPySpace ++ s.data.dropWhile isPySpace = s.data :=
      List.takeWhile_append_dropWhile _ _
    have hws : SpaceStr (s.data.takeWhile isPySpace) :=
      fun x hx => List.mem_takeWhile_imp hx
    cases hcs : s.data.dropWhile isPySpace with
    | nil =>
      rw [hcs] at h
      simp [dropMarker, tailFrom, matchTypeP, matchTypeQ, matchTypeT] at h
    | cons c rest =>
      rw [hcs] at h hsplit0
      by_cases hmark : (c = '$' || c = '|' || c = '!') = true
      · rw [show dropMarker (c :: rest) = rest by simp [dropMarker, hmark]] at h
        obtain ⟨ty, d, chk, tr, rfl, hty, hd, hchk, htr⟩ := matcher_tail_sound rest h
        refine ⟨s.data.takeWhile isPySpace, [c], ty, d, chk, tr, ?_, hws, ?_,
          hty, hd, hchk, htr⟩
        · conv_lhs => rw [← hsplit0]
          simp
        · simp only [Bool.or_eq_true, decide_eq_true_eq] at hmark
          rcases hmark with (rfl | rfl) | rfl
          · exact Or.inr (Or.inl rfl)
          · exact Or.inr (Or.inr (Or.inr rfl))
          · exact Or.inr (Or.inr (Or.inl rfl))
      · rw [show dropMarker (c :: rest) = c :: rest by simp [dropMarker, hmark]] at h
        obtain ⟨ty, d, chk, tr, hrest_eq, hty, hd, hchk, htr⟩ :=
          matcher_tail_sound (c :: rest) h
        refine ⟨s.data.takeWhile isPySpace, [], ty, d, chk, tr, ?_, hws,
          Or.inl rfl, hty, hd, hchk, htr⟩
        conv_lhs => rw [← hsplit0, hrest_eq]
        simp
  · intro hgr
    obtain ⟨ws, mk, ty, d, chk, tr, hsplit, hws, hmk, hty, hd, hchk, htr⟩ := hgr
    simp only [parse_produces_record, sentence_re_match]
    obtain ⟨c0, cs0, hty_shape, hc0⟩ := typeHead_word ty hty
    simp only [List.append_assoc] at hsplit
    have hdrop : s.data.dropWhile isPySpace = mk ++ (ty ++ (d ++ (chk ++ tr))) := by
      rw [hsplit]
      apply dropWhile_space_prefix ws _ hws
      intro cc ccs hcc
      rcases hmk with rfl | rfl | rfl | rfl
      · rw [hty_shape] at hcc
        simp only [List.nil_append, List.cons_append] at hcc
        injection hcc with hhead _
        rw [← hhead]
        exact word_not_space _ hc0
      all_goals
        simp only [List.cons_append, List.nil_append] at hcc
        injection hcc with hhead _
        rw [← hhead]
        decide
    rw [hdrop]
    rcases hmk with rfl | rfl | rfl | rfl
    · rw [hty_shape]
      simp only [List.nil_append, List.cons_append]
      rw [show dropMarker (c0 :: (cs0 ++ (d ++ (chk ++ tr)))) =
            c0 :: (cs0 ++ (d ++ (chk ++ tr))) by
        simp [dropMarker, word_not_marker c0 hc0]]
      have := matcher_tail_complete ty d chk tr hty hd hchk htr
      rw [hty_shape] at this
      simpa using this
    all_goals
      simp only [List.cons_append, List.nil_append]
      rw [show ∀ R : List Char, dropMarker (_ :: R) = R from fun R => by simp [dropMarker]]
      exact matcher_tail_complete ty d chk tr hty hd hchk htr

/-- Claim C7: for a raw field tuple carrying a decoder, the interpreted
value is the decoder applied as a function when that call succeeds, else
the lookup-table entry when the raw value is a key, else the raw value
itself; and whenever the resulting value is text it is coerced to an
integer if possible, else to a floating-point number if possible, else
kept as text.  The right side spells the claim out with the claim-side
`claim_decoded_value` / `claim_coerce`; the left side is the code's
try/except cascade, and the tuple is re-emitted with the raw value and
decoder appended. -/
theorem C7_decoder_interpretation (nv tv dnv : PyItem) (raw : Value) (dec : Decoder) :
    interpret_field [nv, PyItem.v raw, tv, dnv, PyItem.d dec] =
      [nv, PyItem.v (claim_coerce (claim_decoded_value dec raw)), tv, dnv,
       PyItem.v raw, PyItem.d dec] := by
  have hco : ∀ x : Value, numeric_coerce (PyItem.v x) = PyItem.v (claim_coerce x) := by
    intro x
    cases x with
    | vstr s =>
      simp only [numeric_coerce, claim_coerce]
      cases hpi : pyIntOfString s with
      | some n1 => rfl
      | none => by_cases hfl : pyFloatOk s = true <;> simp [hfl]
    | vint n0 => rfl
    | vfloat f0 => rfl
    | vnone => rfl
  cases dec with
  | callback f =>
    cases hf : f raw with
    | some r =>
      simp [interpret_field, tryCall, hf, claim_decoded_value, hco]
    | none =>
      simp [interpret_field, tryCall, trySubscript, hf, claim_decoded_value, hco]
  | table m =>
    cases hm : dictLookup m raw with
    | some r =>
      simp [interpret_field, tryCall, trySubscript, hm, claim_decoded_value, hco]
    | none =>
      simp [interpret_field, tryCall, trySubscript, hm, claim_decoded_value, hco]

theorem C7_decoder_interpretation_witness :
    interpret_field [PyItem.v Value.vnone, PyItem.v (Value.vstr "x"),
        PyItem.v Value.vnone, PyItem.v Value.vnone,
        PyItem.d (Decoder.callback (fun _ => some (Value.vstr "7")))] =
      [PyItem.v Value.vnone, PyItem.v (Value.vint 7), PyItem.v Value.vnone,
       PyItem.v Value.vnone, PyItem.v (Value.vstr "x"),
       PyItem.d (Decoder.callback (fun _ => some (Value.vstr "7")))] :=
  C7_decoder_interpretation (PyItem.v Value.vnone) (PyItem.v Value.vnone)
    (PyItem.v Value.vnone) (Value.vstr "x")
    (Decoder.callback (fun _ => some (Value.vstr "7")))

/-- Claim C10: a raw field tuple of fewer than five items passes through
the interpretation loop unchanged — no decoder application and no numeric
coercion, even for numeric-looking text — and the output holds exactly
one field per input tuple, in the decoder's order. -/
theorem C10_short_tuples_pass_through (fields : List (List PyItem)) :
    (interpret_sub_fields fields).length = fields.length ∧
    (∀ (i : Nat) (fi : List PyItem), fields[i]? = some fi → fi.length < 5 →
      (interpret_sub_fields fields)[i]? = some fi) := by
  have hone : ∀ f : List PyItem, f.length < 5 → interpret_field f = f := by
    intro f hf
    match f with
    | [] => rfl
    | [a] => rfl
    | [a, b] => rfl
    | [a, b, c] => rfl
    | [a, b, c, d] => rfl
    | a :: b :: c :: d :: e :: rest =>
      simp only [List.length_cons] at hf
      omega
  constructor
  · simp [interpret_sub_fields]
  · intro i fi hget hlen
    simp only [interpret_sub_fields, List.getElem?_map, hget, Option.map_some']
    rw [hone fi hlen]

theorem C10_short_tuples_pass_through_witness :
    (interpret_sub_fields [[PyItem.v (Value.vstr "42")]]).length = 1 ∧
    (interpret_sub_fields [[PyItem.v (Value.vstr "42")]])[0]? =
      some [PyItem.v (Value.vstr "42")] :=
  ⟨(C10_short_tuples_pass_through [[PyItem.v (Value.vstr "42")]]).1,
   (C10_short_tuples_pass_through [[PyItem.v (Value.vstr "42")]]).2 0
     [PyItem.v (Value.vstr "42")] rfl (by decide)⟩

end AisParser
